import Mathlib

/-
Verification of src/core/concurrent.rs: the unbounded blocking queue
`Queue<T>` and the bounded blocking queue `BoundedQueue<T>`.

Embedding conventions.
The deque (`Deque<T>`, front at the head) is modelled as `List` with the
front element at the head of the list; `push_back` appends, `pop_front`
removes the head.  Every queue operation in the source runs its mutation
as one critical section under the single `mutex` of the shared state
block, so a concurrent execution is a serialization: a sequence of
completed critical sections.  Each critical section is embedded as a
function on the deque contents; a result of `none` means the operation
cannot complete from that state and the calling thread waits on the
corresponding condition variable (it does not fail).  Condition-variable
calls (`Cond::signal`, which wakes one waiter) are recorded as explicit
events.  The wait loops of `pop` and of the bounded `push` are embedded
a second time, as small-step thread machines whose program counters
mirror the source lines, to settle the temporal claims about re-checking
after wakeups.  `Arc<QueueBox<T>>` sharing is embedded by a heap of
reference-counted state blocks addressed by `Nat` pointers.
-/

namespace RustCore

/-- The condition variables of a queue state block: `not_empty`
(both queue types) and `not_full` (bounded only). -/
inductive CondId : Type where
  | notEmpty
  | notFull
deriving DecidableEq

/-- An operation performed on a condition variable.  `signal` is
`Cond::signal`, waking exactly one waiter; `broadcast` would wake all
waiters and is never called by the source. -/
inductive CondEvent : Type where
  | signal (c : CondId)
  | broadcast (c : CondId)
deriving DecidableEq

/-- Critical section of `Queue::push` (concurrent.rs lines 53 to 61):
lock the mutex, `deque.push_back(item)`, unlock, then
`not_empty.signal()`.  There is no guard, so the function is total:
the unbounded push never waits.  Returns the new deque contents and
the condition events emitted. -/
def Queue.pushAtom (s : List α) (item : α) : List α × List CondEvent :=
  (s ++ [item], [CondEvent.signal CondId.notEmpty])

/-- Critical section of `Queue::pop` (lines 41 to 50).  The guard is the
`while deque.len() == 0` wait loop: `none` means the deque is empty and
the caller waits on `not_empty`.  Otherwise `deque.pop_front()` removes
and returns the front element.  `Queue::pop` emits no condition event. -/
def Queue.popAtom (s : List α) : Option (α × List α) :=
  match s with
  | [] => none
  | x :: rest => some (x, rest)

/-- The bounded queue state block `BoundedQueueBox<T>` (lines 71 to 78),
restricted to the plain data: deque contents and the fixed `maximum`
capacity.  The mutex and the two condition variables are modelled by the
serialization and the emitted events. -/
structure BoundedQueue.Box (α : Type) where
  deque : List α
  maximum : Nat
deriving DecidableEq

/-- `BoundedQueue::new` (lines 87 to 93): a fresh state block with an
empty deque and the given `maximum`, stored unchecked (no validation of
`maximum`, zero included). -/
def BoundedQueue.new (α : Type) (maximum : Nat) : BoundedQueue.Box α :=
  { deque := [], maximum := maximum }

/-- Critical section of `BoundedQueue::push` (lines 111 to 122).  The
guard is the `while deque.len() == maximum` wait loop: `none` means the
deque is at capacity and the caller waits on `not_full`.  Otherwise
`deque.push_back(item)`, unlock, `not_empty.signal()`. -/
def BoundedQueue.pushAtom (cap : Nat) (s : List α) (item : α) :
    Option (List α × List CondEvent) :=
  if s.length = cap then none
  else some (s ++ [item], [CondEvent.signal CondId.notEmpty])

/-- Critical section of `BoundedQueue::pop` (lines 96 to 108).  The
guard is the `while deque.len() == 0` wait loop: `none` means the deque
is empty and the caller waits on `not_empty`.  Otherwise
`deque.pop_front()`, unlock, `not_full.signal()`. -/
def BoundedQueue.popAtom (s : List α) : Option (α × List α × List CondEvent) :=
  match s with
  | [] => none
  | x :: rest => some (x, rest, [CondEvent.signal CondId.notFull])

/-- One completed queue operation in a serialized history.  The single
mutex per queue serializes all critical sections, so any concurrent
execution by any number of producer and consumer threads is some list
of these records; `pop x` records that the pop critical section
completed and returned `x`. -/
inductive Op (α : Type) where
  | push (x : α)
  | pop (x : α)
deriving DecidableEq

/-- Replay a serialized history against the unbounded queue starting
from deque contents `s`: `some s1` when every critical section in `ops`
completes in order (each `pop x` finds the queue non-empty with front
`x`) leaving contents `s1`; `none` when the history is not realizable. -/
def Queue.run [DecidableEq α] : List (Op α) → List α → Option (List α)
  | [], s => some s
  | Op.push x :: ops, s => Queue.run ops (Queue.pushAtom s x).1
  | Op.pop x :: ops, s =>
    match Queue.popAtom s with
    | none => none
    | some (y, rest) => if y = x then Queue.run ops rest else none

/-- Replay a serialized history against the bounded queue of capacity
`cap`: as `Queue.run`, with pushes additionally guarded by the capacity
check of `BoundedQueue::push`. -/
def BoundedQueue.run [DecidableEq α] (cap : Nat) :
    List (Op α) → List α → Option (List α)
  | [], s => some s
  | Op.push x :: ops, s =>
    match BoundedQueue.pushAtom cap s x with
    | none => none
    | some (s', _) => BoundedQueue.run cap ops s'
  | Op.pop x :: ops, s =>
    match BoundedQueue.popAtom s with
    | none => none
    | some (y, rest, _) => if y = x then BoundedQueue.run cap ops rest else none

/-- The items passed to `push` in a history, in order. -/
def pushedItems : List (Op α) → List α
  | [] => []
  | Op.push x :: ops => x :: pushedItems ops
  | Op.pop _ :: ops => pushedItems ops

/-- The items returned by `pop` in a history, in order. -/
def poppedItems : List (Op α) → List α
  | [] => []
  | Op.push _ :: ops => poppedItems ops
  | Op.pop x :: ops => x :: poppedItems ops

/-- Program counter of a thread inside `pop`, mirroring the source
lines.  `check` holds the lock about to evaluate `deque.len() == 0`;
`waiting` is blocked in `not_empty.wait` with the lock released;
`done v` has returned `v`. -/
inductive PopPC (α : Type) where
  | check
  | waiting
  | done (v : α)
deriving DecidableEq

/-- Configuration of one popping thread together with the shared deque
contents it observes under the lock. -/
structure PopConfig (α : Type) where
  pc : PopPC α
  deque : List α
deriving DecidableEq

/-- Small-step semantics of the wait loop of `Queue::pop` (lines 41 to
50) interleaved with other threads.  `toWait` is the loop body entering
`not_empty.wait` when the emptiness test succeeds; `wake` is a wakeup
(signalled or spurious) that re-acquires the lock and returns to the
test; `envPush` and `envPop` are critical sections of other threads,
possible only while this thread does not hold the lock; `finish` is the
loop exiting on a non-empty deque and `pop_front` returning the
front. -/
inductive Queue.PopStep : PopConfig α → PopConfig α → Prop where
  | toWait (s : List α) : s = [] →
      Queue.PopStep ⟨PopPC.check, s⟩ ⟨PopPC.waiting, s⟩
  | wake (s : List α) :
      Queue.PopStep ⟨PopPC.waiting, s⟩ ⟨PopPC.check, s⟩
  | envPush (s : List α) (x : α) :
      Queue.PopStep ⟨PopPC.waiting, s⟩ ⟨PopPC.waiting, (Queue.pushAtom s x).1⟩
  | envPop (x : α) (s : List α) :
      Queue.PopStep ⟨PopPC.waiting, x :: s⟩ ⟨PopPC.waiting, s⟩
  | finish (x : α) (s : List α) :
      Queue.PopStep ⟨PopPC.check, x :: s⟩ ⟨PopPC.done x, s⟩

/-- Small-step semantics of the wait loop of `BoundedQueue::pop` (lines
96 to 108): identical to the unbounded loop except that environment
pushes are additionally guarded by the capacity check of
`BoundedQueue::push`. -/
inductive BoundedQueue.PopStep (cap : Nat) : PopConfig α → PopConfig α → Prop where
  | toWait (s : List α) : s = [] →
      BoundedQueue.PopStep cap ⟨PopPC.check, s⟩ ⟨PopPC.waiting, s⟩
  | wake (s : List α) :
      BoundedQueue.PopStep cap ⟨PopPC.waiting, s⟩ ⟨PopPC.check, s⟩
  | envPush (s : List α) (x : α) : s.length ≠ cap →
      BoundedQueue.PopStep cap ⟨PopPC.waiting, s⟩ ⟨PopPC.waiting, s ++ [x]⟩
  | envPop (x : α) (s : List α) :
      BoundedQueue.PopStep cap ⟨PopPC.waiting, x :: s⟩ ⟨PopPC.waiting, s⟩
  | finish (x : α) (s : List α) :
      BoundedQueue.PopStep cap ⟨PopPC.check, x :: s⟩ ⟨PopPC.done x, s⟩

/-- Program counter of a thread inside `BoundedQueue::push`: `check`
holds the lock about to evaluate `deque.len() == maximum`; `waiting` is
blocked in `not_full.wait`; `done` has appended and returned. -/
inductive PushPC : Type where
  | check
  | waiting
  | done
deriving DecidableEq

/-- Configuration of one pushing thread: program counter, shared deque
contents, and the condition events this thread has emitted. -/
structure PushConfig (α : Type) where
  pc : PushPC
  deque : List α
  events : List CondEvent
deriving DecidableEq

/-- Small-step semantics of `BoundedQueue::push item` (lines 111 to
122) for a queue of capacity `cap`, interleaved with other threads.
`toWait` enters `not_full.wait` when the deque length equals the
capacity; `wake` returns to the test; `envPop` and `envPush` are
critical sections of other threads while the lock is free; `finish` is
the loop exiting under the capacity, `push_back(item)`, unlock, and
`not_empty.signal()`. -/
inductive BoundedQueue.PushStep (cap : Nat) (item : α) :
    PushConfig α → PushConfig α → Prop where
  | toWait (s : List α) (es : List CondEvent) : s.length = cap →
      BoundedQueue.PushStep cap item ⟨PushPC.check, s, es⟩ ⟨PushPC.waiting, s, es⟩
  | wake (s : List α) (es : List CondEvent) :
      BoundedQueue.PushStep cap item ⟨PushPC.waiting, s, es⟩ ⟨PushPC.check, s, es⟩
  | envPop (x : α) (s : List α) (es : List CondEvent) :
      BoundedQueue.PushStep cap item ⟨PushPC.waiting, x :: s, es⟩ ⟨PushPC.waiting, s, es⟩
  | envPush (s : List α) (x : α) (es : List CondEvent) : s.length ≠ cap →
      BoundedQueue.PushStep cap item ⟨PushPC.waiting, s, es⟩ ⟨PushPC.waiting, s ++ [x], es⟩
  | finish (s : List α) (es : List CondEvent) : s.length ≠ cap →
      BoundedQueue.PushStep cap item ⟨PushPC.check, s, es⟩
        ⟨PushPC.done, s ++ [item], es ++ [CondEvent.signal CondId.notEmpty]⟩

/-- A heap of reference-counted unbounded queue state blocks: an
`Arc<QueueBox<T>>` pointer is an index into `boxes` (the deque contents
of each block) and `refs` (its reference count). -/
structure Heap (α : Type) where
  boxes : List (List α)
  refs : List Nat
deriving DecidableEq

/-- `Arc::clone` on the unbounded heap: returns the same pointer and
increments the reference count of the pointed-to block; no block
contents are touched and nothing can fail or wait. -/
def Arc.clone (h : Heap α) (p : Nat) : Nat × Heap α :=
  (p, { boxes := h.boxes, refs := h.refs.set p (h.refs.getD p 0 + 1) })

/-- `impl Clone for Queue` (lines 64 to 69): `Queue { ptr: self.ptr.clone() }`. -/
def Queue.clone (h : Heap α) (q : Nat) : Nat × Heap α :=
  Arc.clone h q

/-- `Queue::push` acting through a handle: the critical section
`Queue.pushAtom` applied to the block the handle points to. -/
def Queue.pushH (h : Heap α) (q : Nat) (x : α) : Heap α :=
  { boxes := h.boxes.set q (Queue.pushAtom (h.boxes.getD q []) x).1, refs := h.refs }

/-- `Queue::pop` acting through a handle: the critical section
`Queue.popAtom` applied to the block the handle points to (`none` when
that block is empty and the caller waits). -/
def Queue.popH (h : Heap α) (q : Nat) : Option (α × Heap α) :=
  match Queue.popAtom (h.boxes.getD q []) with
  | none => none
  | some (x, rest) => some (x, { boxes := h.boxes.set q rest, refs := h.refs })

/-- A heap of reference-counted bounded queue state blocks
(`Arc<BoundedQueueBox<T>>`), each block carrying its deque and its
fixed `maximum`. -/
structure BHeap (α : Type) where
  boxes : List (BoundedQueue.Box α)
  refs : List Nat
deriving DecidableEq

/-- `impl Clone for BoundedQueue` (lines 125 to 130): same pointer,
reference count incremented, blocks untouched. -/
def BoundedQueue.cloneH (h : BHeap α) (q : Nat) : Nat × BHeap α :=
  (q, { boxes := h.boxes, refs := h.refs.set q (h.refs.getD q 0 + 1) })

/-- The state block a bounded handle points to (an empty block of
capacity zero when the pointer dangles, which clone and the operations
never create). -/
def BHeap.boxAt (h : BHeap α) (q : Nat) : BoundedQueue.Box α :=
  h.boxes.getD q { deque := [], maximum := 0 }

/-- `BoundedQueue::push` acting through a handle: `BoundedQueue.pushAtom`
on the pointed-to block, against that block's own `maximum`. -/
def BoundedQueue.pushBH (h : BHeap α) (q : Nat) (x : α) : Option (BHeap α) :=
  match BoundedQueue.pushAtom (h.boxAt q).maximum (h.boxAt q).deque x with
  | none => none
  | some (s', _) =>
    some { boxes := h.boxes.set q { deque := s', maximum := (h.boxAt q).maximum },
           refs := h.refs }

/-- `BoundedQueue::pop` acting through a handle. -/
def BoundedQueue.popBH (h : BHeap α) (q : Nat) : Option (α × BHeap α) :=
  match BoundedQueue.popAtom (h.boxAt q).deque with
  | none => none
  | some (x, rest, _) =>
    some (x, { boxes := h.boxes.set q { deque := rest, maximum := (h.boxAt q).maximum },
               refs := h.refs })

/-- A block of pushes moves the pushed items to the back of the deque. -/
theorem Queue.run_pushes [DecidableEq α] (xs : List α) (ops : List (Op α)) (s : List α) :
    Queue.run (xs.map Op.push ++ ops) s = Queue.run ops (s ++ xs) := by
  induction xs generalizing s with
  | nil => simp
  | cons x xs ih =>
      simp only [List.map_cons, List.cons_append, Queue.run, Queue.pushAtom, List.append_eq]
      rw [ih]
      simp

/-- A block of pops that completes consumed exactly a prefix of the deque. -/
theorem Queue.run_pops [DecidableEq α] (ys : List α) (s s' : List α)
    (h : Queue.run (ys.map Op.pop) s = some s') : s = ys ++ s' := by
  induction ys generalizing s with
  | nil =>
      simp only [List.map_nil, Queue.run, Option.some.injEq] at h
      simp [h]
  | cons y ys ih =>
      match s with
      | [] => simp [Queue.run, Queue.popAtom] at h
      | z :: rest =>
          simp only [List.map_cons, Queue.run, Queue.popAtom] at h
          by_cases hz : z = y
          · subst hz
            simp only [if_pos rfl] at h
            simpa using ih rest h
          · simp [hz] at h

/-- Popping the deque contents themselves succeeds and leaves the rest. -/
theorem Queue.run_pops_self [DecidableEq α] (ys t : List α) :
    Queue.run (ys.map Op.pop) (ys ++ t) = some t := by
  induction ys with
  | nil => simp [Queue.run]
  | cons y ys ih => simp [Queue.run, Queue.popAtom, ih]

/-- Bounded analogue of `Queue.run_pushes`, under the capacity bound
that lets every push in the block complete. -/
theorem BoundedQueue.run_pushes_bounded [DecidableEq α] (cap : Nat) (xs : List α)
    (ops : List (Op α)) (s : List α) (hle : s.length + xs.length ≤ cap) :
    BoundedQueue.run cap (xs.map Op.push ++ ops) s = BoundedQueue.run cap ops (s ++ xs) := by
  induction xs generalizing s with
  | nil => simp
  | cons x xs ih =>
      have hlt : s.length < cap := by
        simp only [List.length_cons] at hle
        omega
      have hne : s.length ≠ cap := Nat.ne_of_lt hlt
      simp only [List.map_cons, List.cons_append, BoundedQueue.run, BoundedQueue.pushAtom,
        if_neg hne, List.append_eq]
      have hx : (s ++ [x]).length + xs.length ≤ cap := by
        simp only [List.length_append, List.length_cons, List.length_nil] at hle ⊢
        omega
      rw [ih (s ++ [x]) hx]
      simp

/-- If a history starting with a block of pushes completes, the block
completed, leaving the pushed items at the back. -/
theorem BoundedQueue.run_pushes_completed [DecidableEq α] (cap : Nat) (xs : List α)
    (ops : List (Op α)) (s r : List α)
    (h : BoundedQueue.run cap (xs.map Op.push ++ ops) s = some r) :
    BoundedQueue.run cap ops (s ++ xs) = some r := by
  induction xs generalizing s with
  | nil => simpa using h
  | cons x xs ih =>
      simp only [List.map_cons, List.cons_append, BoundedQueue.run, BoundedQueue.pushAtom] at h
      by_cases hne : s.length = cap
      · simp [hne] at h
      · simp only [if_neg hne] at h
        simpa using ih (s ++ [x]) h

/-- Bounded analogue of `Queue.run_pops`. -/
theorem BoundedQueue.run_pops_bounded [DecidableEq α] (cap : Nat) (ys : List α) (s s' : List α)
    (h : BoundedQueue.run cap (ys.map Op.pop) s = some s') : s = ys ++ s' := by
  induction ys generalizing s with
  | nil =>
      simp only [List.map_nil, BoundedQueue.run, Option.some.injEq] at h
      simp [h]
  | cons y ys ih =>
      match s with
      | [] => simp [BoundedQueue.run, BoundedQueue.popAtom] at h
      | z :: rest =>
          simp only [List.map_cons, BoundedQueue.run, BoundedQueue.popAtom] at h
          by_cases hz : z = y
          · subst hz
            simp only [if_pos rfl] at h
            simpa using ih rest h
          · simp [hz] at h

/-- Bounded analogue of `Queue.run_pops_self`. -/
theorem BoundedQueue.run_pops_self_bounded [DecidableEq α] (cap : Nat) (ys t : List α) :
    BoundedQueue.run cap (ys.map Op.pop) (ys ++ t) = some t := by
  induction ys with
  | nil => simp [BoundedQueue.run]
  | cons y ys ih => simp [BoundedQueue.run, BoundedQueue.popAtom, ih]

/-- Conservation along any realizable unbounded history, as an exact
list equation: what came off the front, followed by what remains,
equals what was there initially followed by everything pushed. -/
theorem Queue.run_conserves [DecidableEq α] (ops : List (Op α)) (s₀ s₁ : List α)
    (h : Queue.run ops s₀ = some s₁) :
    poppedItems ops ++ s₁ = s₀ ++ pushedItems ops := by
  induction ops generalizing s₀ with
  | nil =>
      simp only [Queue.run, Option.some.injEq] at h
      simp [h, pushedItems, poppedItems]
  | cons op ops ih =>
      cases op with
      | push x =>
          simp only [Queue.run, Queue.pushAtom] at h
          have := ih (s₀ ++ [x]) h
          simp only [pushedItems, poppedItems]
          rw [this]
          simp
      | pop x =>
          match s₀ with
          | [] => simp [Queue.run, Queue.popAtom] at h
          | z :: rest =>
              simp only [Queue.run, Queue.popAtom] at h
              by_cases hz : z = x
              · subst hz
                simp only [if_pos rfl] at h
                have := ih rest h
                simp only [pushedItems, poppedItems, List.cons_append]
                rw [this]
              · simp [hz] at h

/-- Conservation along any realizable bounded history. -/
theorem BoundedQueue.run_conserves_bounded [DecidableEq α] (cap : Nat) (ops : List (Op α))
    (s₀ s₁ : List α) (h : BoundedQueue.run cap ops s₀ = some s₁) :
    poppedItems ops ++ s₁ = s₀ ++ pushedItems ops := by
  induction ops generalizing s₀ with
  | nil =>
      simp only [BoundedQueue.run, Option.some.injEq] at h
      simp [h, pushedItems, poppedItems]
  | cons op ops ih =>
      cases op with
      | push x =>
          simp only [BoundedQueue.run, BoundedQueue.pushAtom] at h
          by_cases hne : s₀.length = cap
          · simp [hne] at h
          · simp only [if_neg hne] at h
            have := ih (s₀ ++ [x]) h
            simp only [pushedItems, poppedItems]
            rw [this]
            simp
      | pop x =>
          match s₀ with
          | [] => simp [BoundedQueue.run, BoundedQueue.popAtom] at h
          | z :: rest =>
              simp only [BoundedQueue.run, BoundedQueue.popAtom] at h
              by_cases hz : z = x
              · subst hz
                simp only [if_pos rfl] at h
                have := ih rest h
                simp only [pushedItems, poppedItems, List.cons_append]
                rw [this]
              · simp [hz] at h

/-- The capacity invariant is preserved along any realizable bounded
history. -/
theorem BoundedQueue.run_length_le [DecidableEq α] (cap : Nat) (ops : List (Op α))
    (s₀ s₁ : List α) (h₀ : s₀.length ≤ cap)
    (h : BoundedQueue.run cap ops s₀ = some s₁) : s₁.length ≤ cap := by
  induction ops generalizing s₀ with
  | nil =>
      simp only [BoundedQueue.run, Option.some.injEq] at h
      exact h ▸ h₀
  | cons op ops ih =>
      cases op with
      | push x =>
          simp only [BoundedQueue.run, BoundedQueue.pushAtom] at h
          by_cases hne : s₀.length = cap
          · simp [hne] at h
          · simp only [if_neg hne] at h
            have hlen : (s₀ ++ [x]).length ≤ cap := by
              simp only [List.length_append, List.length_cons, List.length_nil]
              omega
            exact ih (s₀ ++ [x]) hlen h
      | pop x =>
          match s₀ with
          | [] => simp [BoundedQueue.run, BoundedQueue.popAtom] at h
          | z :: rest =>
              simp only [BoundedQueue.run, BoundedQueue.popAtom] at h
              by_cases hz : z = x
              · subst hz
                simp only [if_pos rfl] at h
                have hlen : rest.length ≤ cap := by
                  simp only [List.length_cons] at h₀
                  omega
                exact ih rest hlen h
              · simp [hz] at h

/-- C1: FIFO ordering.  Pushing a block of values with no interleaved
pops and then popping the same number of times yields exactly those
values in push order, for both `Queue` and `BoundedQueue`: any
realizable history of the shape pushes-then-pops whose pop count equals
the push count pops exactly the pushed block and drains the queue, the
unbounded history always completes, and the bounded one completes
whenever the block fits under the capacity. -/
theorem C1_fifo_order {α : Type} [DecidableEq α] (cap : Nat) (xs ys s' : List α) :
    (Queue.run (xs.map Op.push ++ ys.map Op.pop) [] = some s' →
      ys.length = xs.length → ys = xs ∧ s' = [])
    ∧ (BoundedQueue.run cap (xs.map Op.push ++ ys.map Op.pop) [] = some s' →
      ys.length = xs.length → ys = xs ∧ s' = [])
    ∧ Queue.run (xs.map Op.push ++ xs.map Op.pop) [] = some []
    ∧ (xs.length ≤ cap →
      BoundedQueue.run cap (xs.map Op.push ++ xs.map Op.pop) [] = some []) := by
  refine ⟨?_, ?_, ?_, ?_⟩
  · intro h hlen
    rw [Queue.run_pushes] at h
    have hx : ([] : List α) ++ xs = ys ++ s' := Queue.run_pops ys _ s' h
    simp only [List.nil_append] at hx
    have hlen2 := congrArg List.length hx
    simp only [List.length_append] at hlen2
    have hs' : s' = [] := List.length_eq_zero.mp (by omega)
    subst hs'
    simp only [List.append_nil] at hx
    exact ⟨hx.symm, rfl⟩
  · intro h hlen
    have h2 := BoundedQueue.run_pushes_completed cap xs _ _ _ h
    have hx : ([] : List α) ++ xs = ys ++ s' := BoundedQueue.run_pops_bounded cap ys _ s' h2
    simp only [List.nil_append] at hx
    have hlen2 := congrArg List.length hx
    simp only [List.length_append] at hlen2
    have hs' : s' = [] := List.length_eq_zero.mp (by omega)
    subst hs'
    simp only [List.append_nil] at hx
    exact ⟨hx.symm, rfl⟩
  · rw [Queue.run_pushes]
    simpa using Queue.run_pops_self xs []
  · intro hcap
    rw [BoundedQueue.run_pushes_bounded cap xs _ [] (by simpa using hcap)]
    simpa using BoundedQueue.run_pops_self_bounded cap xs []

/-- Witness for C1 at the block `[1, 2]`, capacity 2, with every
hypothesis discharged concretely. -/
theorem C1_fifo_order_witness :
    ([1, 2] : List Nat) = [1, 2] ∧ ([] : List Nat) = []
    ∧ BoundedQueue.run 2 ([1, 2].map Op.push ++ [1, 2].map Op.pop) ([] : List Nat) = some [] :=
  ⟨((C1_fifo_order 2 [1, 2] [1, 2] []).1 (by decide) (by decide)).1,
   ((C1_fifo_order 2 [1, 2] [1, 2] []).2.1 (by decide) (by decide)).2,
   (C1_fifo_order 2 [1, 2] [1, 2] []).2.2.2 (by decide)⟩

/-- C2: bounded-capacity invariant.  Along every realizable history of
a `BoundedQueue` of capacity `cap` starting empty, the element count
stays at most `cap` (it is at least 0 because it is a `Nat`); and the
`BoundedQueue::push` critical section refuses to add an element while
the length equals the capacity (the thread waits instead, until pops
have made room). -/
theorem C2_bounded_capacity {α : Type} [DecidableEq α] (cap : Nat) (ops : List (Op α))
    (s₁ s : List α) (x : α) :
    (BoundedQueue.run cap ops [] = some s₁ → s₁.length ≤ cap)
    ∧ (s.length = cap → BoundedQueue.pushAtom cap s x = none) := by
  constructor
  · intro h
    exact BoundedQueue.run_length_le cap ops [] s₁ (by simp) h
  · intro h
    simp [BoundedQueue.pushAtom, h]

/-- Witness for C2: capacity 1, history push 5, pop 5, push 6; and a
push finding the queue at capacity. -/
theorem C2_bounded_capacity_witness :
    ([6] : List Nat).length ≤ 1 ∧ BoundedQueue.pushAtom 1 [9] (7 : Nat) = none :=
  ⟨(C2_bounded_capacity 1 [Op.push 5, Op.pop 5, Op.push 6] [6] [9] 7).1 (by decide),
   (C2_bounded_capacity 1 [Op.push 5, Op.pop 5, Op.push 6] [6] [9] 7).2 (by decide)⟩

/-- C3: blocking pop with mandatory re-check.  In the wait-loop
semantics of `Queue::pop` and `BoundedQueue::pop`: a step that returns
a value is possible only from the test point with a non-empty deque,
and it removes and returns the front element; and every step out of the
wait state either stays waiting or re-enters the test — a wake never
returns directly, so the emptiness check is re-evaluated after every
wake. -/
theorem C3_pop_requires_nonempty {α : Type} (cap : Nat) (c : PopConfig α) (v : α)
    (s s' : List α) (c' : PopConfig α) :
    (Queue.PopStep c ⟨PopPC.done v, s'⟩ →
      c.pc = PopPC.check ∧ c.deque = v :: s' ∧ c.deque ≠ [])
    ∧ (Queue.PopStep ⟨PopPC.waiting, s⟩ c' →
      c'.pc = PopPC.waiting ∨ c'.pc = PopPC.check)
    ∧ (BoundedQueue.PopStep cap c ⟨PopPC.done v, s'⟩ →
      c.pc = PopPC.check ∧ c.deque = v :: s' ∧ c.deque ≠ [])
    ∧ (BoundedQueue.PopStep cap ⟨PopPC.waiting, s⟩ c' →
      c'.pc = PopPC.waiting ∨ c'.pc = PopPC.check) := by
  refine ⟨?_, ?_, ?_, ?_⟩
  · intro h
    cases h with
    | finish x s => exact ⟨rfl, rfl, by simp⟩
  · intro h
    cases h <;> simp
  · intro h
    cases h with
    | finish x s => exact ⟨rfl, rfl, by simp⟩
  · intro h
    cases h <;> simp

/-- Witness for C3: the completing step from deque `[5]` and a wake
step, for both queue types. -/
theorem C3_pop_requires_nonempty_witness :
    ((PopPC.check : PopPC Nat) = PopPC.check ∧ ([5] : List Nat) = 5 :: [] ∧ ([5] : List Nat) ≠ [])
    ∧ (PopPC.check = (PopPC.waiting : PopPC Nat) ∨ PopPC.check = (PopPC.check : PopPC Nat))
    ∧ ((PopPC.check : PopPC Nat) = PopPC.check ∧ ([5] : List Nat) = 5 :: [] ∧ ([5] : List Nat) ≠ []) :=
  ⟨(C3_pop_requires_nonempty 2 ⟨PopPC.check, [5]⟩ 5 [] [] ⟨PopPC.check, []⟩).1
      (Queue.PopStep.finish 5 []),
   (C3_pop_requires_nonempty 2 ⟨PopPC.check, [5]⟩ 5 [] [] ⟨PopPC.check, []⟩).2.1
      (Queue.PopStep.wake []),
   (C3_pop_requires_nonempty 2 ⟨PopPC.check, [5]⟩ 5 [] [] ⟨PopPC.check, []⟩).2.2.1
      (BoundedQueue.PopStep.finish 5 [])⟩

/-- C4: the bounded push waits from the test point exactly while the
deque length equals the capacity; once below capacity it can complete,
appending the item at the back (length grows by one) and emitting one
`signal` (wake-one) on `not_empty`; every completion has that exact
shape; and a wake from the wait state re-enters the test, never
completing directly. -/
theorem C4_bounded_push {α : Type} (cap : Nat) (item : α) (s : List α)
    (es : List CondEvent) (c c' : PushConfig α) (s' : List α) (es' : List CondEvent) :
    (s.length = cap →
      BoundedQueue.PushStep cap item ⟨PushPC.check, s, es⟩ ⟨PushPC.waiting, s, es⟩)
    ∧ (BoundedQueue.PushStep cap item ⟨PushPC.check, s, es⟩ c' →
      c'.pc = PushPC.waiting → s.length = cap)
    ∧ (s.length < cap →
      BoundedQueue.PushStep cap item ⟨PushPC.check, s, es⟩
        ⟨PushPC.done, s ++ [item], es ++ [CondEvent.signal CondId.notEmpty]⟩
      ∧ (s ++ [item]).length = s.length + 1)
    ∧ (BoundedQueue.PushStep cap item c ⟨PushPC.done, s', es'⟩ →
      c.pc = PushPC.check ∧ c.deque.length ≠ cap ∧ s' = c.deque ++ [item]
      ∧ es' = c.events ++ [CondEvent.signal CondId.notEmpty])
    ∧ (BoundedQueue.PushStep cap item ⟨PushPC.waiting, s, es⟩ c' →
      c'.pc = PushPC.waiting ∨ c'.pc = PushPC.check) := by
  refine ⟨?_, ?_, ?_, ?_, ?_⟩
  · intro h
    exact BoundedQueue.PushStep.toWait s es h
  · intro h hpc
    cases h with
    | toWait s es h' => exact h'
    | finish s es h' => simp at hpc
  · intro h
    exact ⟨BoundedQueue.PushStep.finish s es (Nat.ne_of_lt h), by simp⟩
  · intro h
    cases h with
    | finish s es h' => exact ⟨rfl, h', rfl, rfl⟩
  · intro h
    cases h <;> simp

/-- Witness for C4 at capacity 1: a completing push from the empty
deque, a wait step from the full deque `[9]`, and the inversion of the
concrete completing step. -/
theorem C4_bounded_push_witness :
    (BoundedQueue.PushStep 1 (7 : Nat) ⟨PushPC.check, [], []⟩
        ⟨PushPC.done, [] ++ [7], [] ++ [CondEvent.signal CondId.notEmpty]⟩
      ∧ (([] : List Nat) ++ [7]).length = ([] : List Nat).length + 1)
    ∧ BoundedQueue.PushStep 1 (9 : Nat) ⟨PushPC.check, [8], []⟩ ⟨PushPC.waiting, [8], []⟩
    ∧ (PushPC.check = PushPC.check ∧ ([] : List Nat).length ≠ 1 ∧ [7] = ([] : List Nat) ++ [7]
      ∧ [CondEvent.signal CondId.notEmpty] =
          ([] : List CondEvent) ++ [CondEvent.signal CondId.notEmpty]) :=
  ⟨(C4_bounded_push 1 7 [] [] ⟨PushPC.check, [], []⟩ ⟨PushPC.check, [], []⟩ [] []).2.2.1
      (by decide),
   (C4_bounded_push 1 9 [8] [] ⟨PushPC.check, [], []⟩ ⟨PushPC.check, [], []⟩ [] []).1
      (by decide),
   (C4_bounded_push 1 7 [] [] ⟨PushPC.check, [], []⟩ ⟨PushPC.check, [], []⟩ [7]
      [CondEvent.signal CondId.notEmpty]).2.2.2.1
      (BoundedQueue.PushStep.finish [] [] (by decide))⟩

/-- C5: no loss.  Along any realizable serialized history (any
interleaving of any number of producers and consumers) starting from
the empty queue, the multiset of pushed items equals the multiset of
popped items plus the multiset still in the queue; in particular when
the queue has been drained, popped equals pushed exactly — nothing
duplicated, nothing dropped.  Stated for both queue types. -/
theorem C5_no_loss {α : Type} [DecidableEq α] (cap : Nat) (ops : List (Op α)) (s₁ : List α) :
    (Queue.run ops [] = some s₁ →
      (↑(pushedItems ops) : Multiset α) = ↑(poppedItems ops) + ↑s₁
      ∧ (s₁ = [] → (↑(pushedItems ops) : Multiset α) = ↑(poppedItems ops)))
    ∧ (BoundedQueue.run cap ops [] = some s₁ →
      (↑(pushedItems ops) : Multiset α) = ↑(poppedItems ops) + ↑s₁
      ∧ (s₁ = [] → (↑(pushedItems ops) : Multiset α) = ↑(poppedItems ops))) := by
  constructor
  · intro h
    have hl := Queue.run_conserves ops [] s₁ h
    simp only [List.nil_append] at hl
    refine ⟨by rw [Multiset.coe_add, hl], ?_⟩
    intro hs
    subst hs
    simp only [List.append_nil] at hl
    rw [hl]
  · intro h
    have hl := BoundedQueue.run_conserves_bounded cap ops [] s₁ h
    simp only [List.nil_append] at hl
    refine ⟨by rw [Multiset.coe_add, hl], ?_⟩
    intro hs
    subst hs
    simp only [List.append_nil] at hl
    rw [hl]

/-- Witness for C5: an unbounded history leaving `[2]` in the queue,
and a drained bounded history at capacity 1. -/
theorem C5_no_loss_witness :
    (↑(pushedItems [Op.push 1, Op.push 2, Op.pop 1]) : Multiset Nat) =
      ↑(poppedItems [Op.push 1, Op.push 2, Op.pop 1]) + ↑([2] : List Nat)
    ∧ (↑(pushedItems [Op.push 1, Op.pop 1]) : Multiset Nat) =
      ↑(poppedItems [Op.push 1, Op.pop 1]) :=
  ⟨((C5_no_loss 1 [Op.push 1, Op.push 2, Op.pop 1] [2]).1 (by decide)).1,
   ((C5_no_loss 1 [Op.push 1, Op.pop 1] []).2 (by decide)).2 rfl⟩

/-- Writing a heap cell and reading back the same valid index yields
the written value. -/
theorem getD_set_self {β : Type} (l : List β) (i : Nat) (v d : β) (h : i < l.length) :
    (l.set i v).getD i d = v := by
  rw [List.getD_eq_getElem?_getD, List.getElem?_set_eq_of_lt v h]
  rfl

/-- A pop through a handle whose block holds `v :: rest` completes and
returns `v`. -/
theorem Queue.popH_of_getD {α : Type} (hp : Heap α) (q : Nat) (v : α) (rest : List α)
    (h : hp.boxes.getD q [] = v :: rest) :
    (Queue.popH hp q).map Prod.fst = some v := by
  unfold Queue.popH
  rw [h]
  rfl

/-- Bounded analogue of `Queue.popH_of_getD`. -/
theorem BoundedQueue.popBH_of_deque {α : Type} (bh : BHeap α) (q : Nat) (v : α)
    (rest : List α) (h : (bh.boxAt q).deque = v :: rest) :
    (BoundedQueue.popBH bh q).map Prod.fst = some v := by
  unfold BoundedQueue.popBH
  rw [h]
  rfl

/-- C6: clone sharing.  `clone` returns the very same pointer with the
blocks untouched, so a push performed through the clone is observed by
a pop through the original handle and vice versa, for both queue types.
Clone itself is a total function with no wait guard: it never fails and
never blocks. -/
theorem C6_clone_shares {α : Type} (hp : Heap α) (bh : BHeap α) (q : Nat) (x : α)
    (bh' : BHeap α) (hq : q < hp.boxes.length) (hbq : q < bh.boxes.length) :
    (Queue.clone hp q).1 = q
    ∧ (Queue.pushH (Queue.clone hp q).2 (Queue.clone hp q).1 x).boxes.getD q [] =
        hp.boxes.getD q [] ++ [x]
    ∧ (hp.boxes.getD q [] = [] →
        (Queue.popH (Queue.pushH (Queue.clone hp q).2 (Queue.clone hp q).1 x) q).map
          Prod.fst = some x)
    ∧ (hp.boxes.getD q [] = [] →
        (Queue.popH (Queue.pushH hp q x) (Queue.clone hp q).1).map Prod.fst = some x)
    ∧ (BoundedQueue.cloneH bh q).1 = q
    ∧ (BoundedQueue.pushBH (BoundedQueue.cloneH bh q).2 (BoundedQueue.cloneH bh q).1 x =
          some bh' → (bh'.boxAt q).deque = (bh.boxAt q).deque ++ [x])
    ∧ ((bh.boxAt q).deque = [] →
        BoundedQueue.pushBH (BoundedQueue.cloneH bh q).2 (BoundedQueue.cloneH bh q).1 x =
          some bh' → (BoundedQueue.popBH bh' q).map Prod.fst = some x) := by
  have hpushClone :
      (Queue.pushH (Queue.clone hp q).2 (Queue.clone hp q).1 x).boxes.getD q [] =
        hp.boxes.getD q [] ++ [x] :=
    getD_set_self hp.boxes q ((Queue.pushAtom (hp.boxes.getD q []) x).1) [] hq
  have hpushOrig :
      (Queue.pushH hp q x).boxes.getD q [] = hp.boxes.getD q [] ++ [x] :=
    getD_set_self hp.boxes q ((Queue.pushAtom (hp.boxes.getD q []) x).1) [] hq
  have key : BoundedQueue.pushBH (BoundedQueue.cloneH bh q).2 (BoundedQueue.cloneH bh q).1 x =
      some bh' →
      bh'.boxes = bh.boxes.set q
        { deque := (bh.boxAt q).deque ++ [x], maximum := (bh.boxAt q).maximum } := by
    intro hpush
    have hpush2 :
        (match BoundedQueue.pushAtom (bh.boxAt q).maximum (bh.boxAt q).deque x with
          | none => (none : Option (BHeap α))
          | some (s', _) =>
            some { boxes := bh.boxes.set q { deque := s', maximum := (bh.boxAt q).maximum },
                   refs := (BoundedQueue.cloneH bh q).2.refs }) = some bh' := hpush
    by_cases hc : (bh.boxAt q).deque.length = (bh.boxAt q).maximum
    · rw [show BoundedQueue.pushAtom (bh.boxAt q).maximum (bh.boxAt q).deque x = none from by
        simp [BoundedQueue.pushAtom, hc]] at hpush2
      exact absurd hpush2 (by simp)
    · rw [show BoundedQueue.pushAtom (bh.boxAt q).maximum (bh.boxAt q).deque x =
          some ((bh.boxAt q).deque ++ [x], [CondEvent.signal CondId.notEmpty]) from by
        simp [BoundedQueue.pushAtom, hc]] at hpush2
      simp only [Option.some.injEq] at hpush2
      rw [← hpush2]
  have keyAt : BoundedQueue.pushBH (BoundedQueue.cloneH bh q).2 (BoundedQueue.cloneH bh q).1 x =
      some bh' → (bh'.boxAt q).deque = (bh.boxAt q).deque ++ [x] := by
    intro hpush
    have hb := key hpush
    show (bh'.boxes.getD q _).deque = _
    rw [hb, getD_set_self _ _ _ _ hbq]
  refine ⟨rfl, hpushClone, ?_, ?_, rfl, keyAt, ?_⟩
  · intro hemp
    rw [hemp] at hpushClone
    simp only [List.nil_append] at hpushClone
    exact Queue.popH_of_getD _ q x [] hpushClone
  · intro hemp
    rw [hemp] at hpushOrig
    simp only [List.nil_append] at hpushOrig
    exact Queue.popH_of_getD _ (Queue.clone hp q).1 x [] hpushOrig
  · intro hemp hpush
    have hb := keyAt hpush
    rw [hemp] at hb
    simp only [List.nil_append] at hb
    exact BoundedQueue.popBH_of_deque bh' q x [] hb

/-- Witness for C6 on a one-block heap with an empty deque: pushing 5
through the clone is observed by a pop through the original, for both
queue types. -/
theorem C6_clone_shares_witness :
    (Queue.clone (⟨[[]], [1]⟩ : Heap Nat) 0).1 = 0
    ∧ ((Queue.popH (Queue.pushH (Queue.clone (⟨[[]], [1]⟩ : Heap Nat) 0).2
          (Queue.clone (⟨[[]], [1]⟩ : Heap Nat) 0).1 5) 0).map Prod.fst = some 5)
    ∧ ((BoundedQueue.popBH (⟨[{ deque := [5], maximum := 2 }], [2]⟩ : BHeap Nat) 0).map
          Prod.fst = some 5) :=
  ⟨(C6_clone_shares (⟨[[]], [1]⟩ : Heap Nat) (⟨[{ deque := [], maximum := 2 }], [1]⟩ : BHeap Nat)
      0 5 (⟨[{ deque := [5], maximum := 2 }], [2]⟩ : BHeap Nat) (by decide) (by decide)).1,
   (C6_clone_shares (⟨[[]], [1]⟩ : Heap Nat) (⟨[{ deque := [], maximum := 2 }], [1]⟩ : BHeap Nat)
      0 5 (⟨[{ deque := [5], maximum := 2 }], [2]⟩ : BHeap Nat) (by decide) (by decide)).2.2.1
      (by decide),
   (C6_clone_shares (⟨[[]], [1]⟩ : Heap Nat) (⟨[{ deque := [], maximum := 2 }], [1]⟩ : BHeap Nat)
      0 5 (⟨[{ deque := [5], maximum := 2 }], [2]⟩ : BHeap Nat) (by decide) (by decide)).2.2.2.2.2.2
      (by decide) (by decide)⟩

/-- C7 as stated is false on the code: the claim says the signal events
coincide with the empty-to-non-empty and full-to-non-full transitions,
but `Queue::push` signals `not_empty` on every push — here a push onto
the non-empty deque `[0]` — and `BoundedQueue::pop` signals `not_full`
on every completed pop — here a pop from the deque `[0, 1]`, which is
not full at capacity 5. -/
theorem C7_signal_transition_counterexample :
    (Queue.pushAtom [0] (1 : Nat)).2 = [CondEvent.signal CondId.notEmpty]
    ∧ ([0] : List Nat) ≠ []
    ∧ BoundedQueue.popAtom [(0 : Nat), 1] =
        some (0, [1], [CondEvent.signal CondId.notFull])
    ∧ ([(0 : Nat), 1] : List Nat).length ≠ 5 := by
  decide

/-- C7 amended: the not-empty condition is signaled on every push
(hence in particular when an element is added to an empty queue), and
the not-full condition is signaled on every completed bounded pop
(hence in particular when an element is removed from a full queue); the
signals are implications of the transitions, not coincident with
them. -/
theorem C7_signal_on_every_operation {α : Type} (s rest : List α) (x v : α)
    (es : List CondEvent) :
    (Queue.pushAtom s x).2 = [CondEvent.signal CondId.notEmpty]
    ∧ (BoundedQueue.popAtom s = some (v, rest, es) →
        es = [CondEvent.signal CondId.notFull]) := by
  constructor
  · rfl
  · intro h
    cases s with
    | nil => simp [BoundedQueue.popAtom] at h
    | cons z r =>
        simp only [BoundedQueue.popAtom, Option.some.injEq, Prod.mk.injEq] at h
        exact h.2.2.symm

/-- Witness for C7 amended: the completed pop from `[3]`. -/
theorem C7_signal_on_every_operation_witness :
    BoundedQueue.popAtom [(3 : Nat)] = some (3, [], [CondEvent.signal CondId.notFull])
    ∧ [CondEvent.signal CondId.notFull] = [CondEvent.signal CondId.notFull] :=
  ⟨by decide,
   (C7_signal_on_every_operation [3] [] (9 : Nat) 3 [CondEvent.signal CondId.notFull]).2
      (by decide)⟩

/-- C8: unbounded push totality and effect.  `Queue.pushAtom` is a
total function (the source `Queue::push` has no wait loop, so it never
blocks and never fails): from every state it appends the item at the
back, grows the length by exactly one, and emits exactly one `signal`
(wake-one, not `broadcast`) on `not_empty`. -/
theorem C8_unbounded_push_total {α : Type} (s : List α) (x : α) :
    Queue.pushAtom s x = (s ++ [x], [CondEvent.signal CondId.notEmpty])
    ∧ (Queue.pushAtom s x).1.length = s.length + 1 :=
  ⟨rfl, by simp [Queue.pushAtom]⟩

/-- C9: no error results.  `BoundedQueue::new` validates nothing: for
every `maximum`, zero included, it returns an empty state block with
exactly that capacity.  The operations are embedded with `Option`
results in which `none` means the caller waits — there is no error
value anywhere.  On a capacity-0 queue no operation can ever complete:
every nonempty serialized history is unrealizable, so every subsequent
push (and pop) waits forever. -/
theorem C9_no_error_zero_capacity (m : Nat) (op : Op Nat) (ops : List (Op Nat)) :
    (BoundedQueue.new Nat m).maximum = m
    ∧ (BoundedQueue.new Nat m).deque = []
    ∧ BoundedQueue.run 0 (op :: ops) [] = none := by
  refine ⟨rfl, rfl, ?_⟩
  cases op with
  | push x => simp [BoundedQueue.run, BoundedQueue.pushAtom]
  | pop x => simp [BoundedQueue.run, BoundedQueue.popAtom]

/-- C10: clone is effect-free on the queue contents.  For both queue
types, `clone` leaves every state block untouched — the deques (and,
for the bounded queue, each block's `maximum`, carried inside the
block) are unchanged — and mutates only the reference count of the
pointed-to block, returning the same pointer. -/
theorem C10_clone_frame {α : Type} (hp : Heap α) (bh : BHeap α) (q : Nat) :
    (Queue.clone hp q).2.boxes = hp.boxes
    ∧ (Queue.clone hp q).2.refs = hp.refs.set q (hp.refs.getD q 0 + 1)
    ∧ (Queue.clone hp q).1 = q
    ∧ (BoundedQueue.cloneH bh q).2.boxes = bh.boxes
    ∧ (BoundedQueue.cloneH bh q).2.refs = bh.refs.set q (bh.refs.getD q 0 + 1)
    ∧ (BoundedQueue.cloneH bh q).1 = q :=
  ⟨rfl, rfl, rfl, rfl, rfl, rfl⟩

end RustCore
